import Mathlib

/-!
Verification of the rime-userdb-maker pinyin-correction tool.

The repository ships `src/main.py`, the CLI orchestrator.  The processing
module `rime_processor_embedded` (override-table loading, line parsing,
pinyin correction) is imported by `main.py` but its source is not part of
the repository snapshot; those components are modelled from the design
specification and are marked `Modelled from the spec:` in their doc
comments.  Lines of text are embedded as `List Char` so that byte-for-byte
claims are literal list equalities.
-/

namespace RimeUserdb

/-- Whitespace characters that may trail a dictionary line (space, CR, LF).
The tab character is excluded because it is the column delimiter. -/
def isWS (c : Char) : Bool :=
  c == ' ' || c == '\r' || c == '\n'

/-- Last character of a character list, if any. -/
def lastChar? (l : List Char) : Option Char :=
  l.reverse.head?

/-- A list is `endsOK` when its last character, if present, is not
line-trailing whitespace. -/
def endsOK (l : List Char) : Prop :=
  ∀ c, lastChar? l = some c → isWS c = false

/-- Modelled from the spec: split a raw line into (body, trailing
whitespace); serialization appends the trailing whitespace back, so an
unmodified line reproduces its bytes. -/
def splitTrailingWS : List Char → List Char × List Char
  | [] => ([], [])
  | c :: rest =>
      if (splitTrailingWS rest).1 = [] ∧ isWS c = true
      then ([], c :: (splitTrailingWS rest).2)
      else (c :: (splitTrailingWS rest).1, (splitTrailingWS rest).2)

/-- Body of a raw line: the line with trailing whitespace removed. -/
def bodyOf (l : List Char) : List Char := (splitTrailingWS l).1

/-- Trailing whitespace of a raw line. -/
def trailingWS (l : List Char) : List Char := (splitTrailingWS l).2

/-- Modelled from the spec: split a line body on the tab delimiter into its
columns.  The result is never empty; an empty body yields one empty
column. -/
def splitTab : List Char → List (List Char)
  | [] => [[]]
  | c :: rest =>
      if c = '\t' then [] :: splitTab rest
      else (c :: (splitTab rest).headI) :: (splitTab rest).tail

/-- Modelled from the spec: join columns with the tab delimiter (inverse of
`splitTab`). -/
def joinTab : List (List Char) → List Char
  | [] => []
  | [col] => col
  | col :: col2 :: cols => col ++ '\t' :: joinTab (col2 :: cols)

/-- Modelled from the spec: result of splitting a pinyin field at the first
auxiliary-code separator.  Invariant: `base ++ separator_char :: auxiliary`
(when present) reconstructs the original field. -/
structure SplitPinyin where
  base : List Char
  separator_char : Option Char
  auxiliary : Option (List Char)
deriving DecidableEq

/-- Modelled from the spec: scan the pinyin field for the first occurrence
of any configured separator character; everything before it is the base,
everything after it is the auxiliary tail. -/
def splitAuxCode (seps : List Char) : List Char → SplitPinyin
  | [] => ⟨[], none, none⟩
  | c :: rest =>
      if c ∈ seps then ⟨[], some c, some rest⟩
      else
        ⟨c :: (splitAuxCode seps rest).base, (splitAuxCode seps rest).separator_char,
          (splitAuxCode seps rest).auxiliary⟩

/-- Modelled from the spec: a dictionary line is a comment/header line
(kept verbatim), a malformed line (fewer than two columns, passed through
raw), or a data line with word, pinyin field, remaining columns and
trailing whitespace. -/
inductive DictionaryLine where
  | commentOrHeader (raw : List Char)
  | malformed (raw : List Char)
  | dataLine (word pinyin_field : List Char) (remaining_columns : List (List Char))
      (trailing_ws : List Char)
deriving DecidableEq

/-- Whether a raw line begins with the comment marker. -/
def startsWithHash : List Char → Bool
  | [] => false
  | c :: _ => c == '#'

/-- Modelled from the spec: classify a raw line.  Lines before the data
section or starting with the comment marker are comment/header lines;
otherwise the body is split on tabs and must yield at least two columns. -/
def parseLine (inData : Bool) (raw : List Char) : DictionaryLine :=
  if inData = false || startsWithHash raw then .commentOrHeader raw
  else
    match splitTab (bodyOf raw) with
    | w :: p :: rest => .dataLine w p rest (trailingWS raw)
    | _ => .malformed raw

/-- Modelled from the spec: serialize a dictionary line back to raw bytes;
comment/header and malformed lines are reproduced verbatim. -/
def serializeLine : DictionaryLine → List Char
  | .commentOrHeader raw => raw
  | .malformed raw => raw
  | .dataLine w p rest tw => joinTab (w :: p :: rest) ++ tw

/-- Modelled from the spec: the Override Table maps a word to its accepted
pronunciations (an ordered, nonempty list in practice); built once per run
by `load_custom_pinyin_from_directory` and read-only afterwards. -/
abbrev OverrideTable := List (List Char × List (List Char))

/-- Modelled from the spec: look up a word in the Override Table. -/
def lookupOverride : OverrideTable → List Char → Option (List (List Char))
  | [], _ => none
  | (w, ps) :: rest, word => if word = w then some ps else lookupOverride rest word

/-- Modelled from the spec: the Correction Engine's decision for one data
line; `changed` says whether the pinyin field was rewritten. -/
structure CorrectionDecision where
  changed : Bool
  new_pinyin_field : List Char
deriving DecidableEq

/-- Modelled from the spec (Correction Engine): look up the word; if absent,
or the base pinyin already equals an accepted pronunciation, no change;
otherwise the new field is the first accepted pronunciation with the
original separator and auxiliary tail re-attached when present.  An entry
with an empty accepted list (never produced by the builder) yields no
change. -/
def decideCorrection (table : OverrideTable) (seps : List Char)
    (word pinyin_field : List Char) : CorrectionDecision :=
  match lookupOverride table word with
  | none => ⟨false, pinyin_field⟩
  | some accepted =>
      if (splitAuxCode seps pinyin_field).base ∈ accepted then ⟨false, pinyin_field⟩
      else
        match accepted.head? with
        | none => ⟨false, pinyin_field⟩
        | some a0 =>
            match (splitAuxCode seps pinyin_field).separator_char,
                  (splitAuxCode seps pinyin_field).auxiliary with
            | some c, some aux => ⟨true, a0 ++ c :: aux⟩
            | _, _ => ⟨true, a0⟩

/-- Modelled from the spec: correct a single raw line; data lines get the
engine's decision applied to the pinyin column, all other lines pass
through verbatim. -/
def correctLine (table : OverrideTable) (seps : List Char) (inData : Bool)
    (raw : List Char) : List Char :=
  match parseLine inData raw with
  | .dataLine w p rest tw =>
      serializeLine (.dataLine w (decideCorrection table seps w p).new_pinyin_field rest tw)
  | _ => raw

/-- The Rime data-section delimiter line. -/
def dataSectionDelimiter : List Char := "...".toList

/-- Modelled from the spec: header-section state update; after the
data-section delimiter every subsequent line is a candidate data line. -/
def stepInData (inData : Bool) (raw : List Char) : Bool :=
  if raw = dataSectionDelimiter then true else inData

/-- Modelled from the spec: correct a file's lines in order, tracking the
header/data-section state. -/
def correctLines (table : OverrideTable) (seps : List Char) :
    Bool → List (List Char) → List (List Char)
  | _, [] => []
  | inData, l :: ls =>
      correctLine table seps inData l :: correctLines table seps (stepInData inData l) ls

/-- Modelled from the spec: the File Corrector applied to a whole file,
starting in the header section. -/
def correctFile (table : OverrideTable) (seps : List Char)
    (lines : List (List Char)) : List (List Char) :=
  correctLines table seps false lines

/-- The default auxiliary-code separator characters (the literal characters
of the default character class). -/
def defaultSeps : List Char := [';', '[']

/-- Configuration settings handled by `main.py` (`input_dir`, `output_dir`,
`custom_dir`, `aux_sep_regex`), each a raw string. -/
structure ConfigSettings where
  input_dir : List Char
  output_dir : List Char
  custom_dir : List Char
  aux_sep_regex : List Char
deriving DecidableEq

/-- The built-in defaults that `load_config` installs in the DEFAULT
section before any config file is read (main.py lines 43-48). -/
def load_config_DEFAULT : ConfigSettings :=
  ⟨"./input".toList, "./output".toList, "./pinyin_data".toList, "[;\\[]".toList⟩

/-- The Settings section that `create_default_config` writes to the
generated `config.ini` (main.py lines 68-73). -/
def create_default_config_settings : ConfigSettings :=
  ⟨"./input".toList, "./output".toList, "./pinyin_data".toList, "[;\\[]".toList⟩

/-- Modelled from the spec: read the body of a regex character class,
honouring backslash escapes, until the closing bracket. -/
def charClassBody : List Char → List Char
  | [] => []
  | '\\' :: c :: rest => c :: charClassBody rest
  | ']' :: _ => []
  | c :: rest => c :: charClassBody rest

/-- Modelled from the spec: the set of literal characters denoted by a
regex character class such as the separator pattern. -/
def charClassOf : List Char → List Char
  | '[' :: rest => charClassBody rest
  | _ => []

/-- Abstraction of the filesystem visible to `main.py`: which paths exist,
which are files and which are directories.  On a real filesystem every
file also exists, recorded by `isfile_exists`. -/
structure Fs where
  pathExists : List Char → Bool
  isfile : List Char → Bool
  isdir : List Char → Bool
  isfile_exists : ∀ p, isfile p = true → pathExists p = true

/-- Python's `input_dir.replace('Z:', '', 1)`: remove the first occurrence
of the substring `Z:` (main.py line 138). -/
def removeFirstZColon : List Char → List Char
  | 'Z' :: ':' :: rest => rest
  | c :: rest => c :: removeFirstZColon rest
  | [] => []

/-- Python's `.replace('\\', '/')`: turn every backslash into a slash
(main.py line 138). -/
def backslashToSlash (l : List Char) : List Char :=
  l.map (fun c => if c = '\\' then '/' else c)

/-- Python's `input_dir.startswith('Z:')` (main.py line 137). -/
def startsWithZColon : List Char → Bool
  | 'Z' :: ':' :: _ => true
  | _ => false

/-- Outcome of the input-path check: proceed with a (possibly translated)
path, or print an error and exit with status 1. -/
inductive CheckResult where
  | proceed (path : List Char)
  | exitOne
deriving DecidableEq

/-- The input-path check of main.py lines 135-148: a missing path that
starts with `Z:` is retried after Wine-style translation; otherwise a
missing path is fatal. -/
def checkInputPath (fs : Fs) (input_dir : List Char) : CheckResult :=
  if fs.pathExists input_dir = false ∧ fs.isfile input_dir = false then
    if startsWithZColon input_dir = true then
      if fs.pathExists (backslashToSlash (removeFirstZColon input_dir)) = true then
        .proceed (backslashToSlash (removeFirstZColon input_dir))
      else .exitOne
    else .exitOne
  else .proceed input_dir

/-- POSIX `os.path.isabs`: the path starts with a slash. -/
def isabs : List Char → Bool
  | '/' :: _ => true
  | _ => false

/-- Path resolution of main.py lines 123-132: relative paths are joined
onto the script directory. -/
def resolvePath (script_dir p : List Char) : List Char :=
  if isabs p = true then p else script_dir ++ '/' :: p

/-- The command-line arguments of `main.py` relevant to control flow;
`none` means the option was not given. -/
structure Args where
  input : Option (List Char)
  output : Option (List Char)
  custom_dir : Option (List Char)
  create_config : Bool

/-- The resolved input path (main.py lines 116, 123-124, 130): the command
line wins over the configuration, relative paths are joined onto the
script directory. -/
def resolvedInput (args : Args) (script_dir : List Char) (cfg : ConfigSettings) : List Char :=
  resolvePath script_dir (args.input.getD cfg.input_dir)

/-- The resolved output path (main.py lines 117, 125-126, 131). -/
def resolvedOutput (args : Args) (script_dir : List Char) (cfg : ConfigSettings) : List Char :=
  resolvePath script_dir (args.output.getD cfg.output_dir)

/-- The resolved custom-pinyin directory (main.py lines 118, 127-128,
132). -/
def resolvedCustom (args : Args) (script_dir : List Char) (cfg : ConfigSettings) : List Char :=
  resolvePath script_dir (args.custom_dir.getD cfg.custom_dir)

/-- Observable actions of a `main` run, in order: writing the default
config file, loading the configuration, the `load_custom_pinyin_from_directory`
call, the `process_files` call, error printing, and `sys.exit`. -/
inductive Event where
  | createConfigFile (path : List Char) (settings : ConfigSettings)
  | loadConfigEvent
  | loadOverridesEvent (dir : List Char)
  | processFilesEvent (input output : List Char)
  | printErrorEvent
  | exitEvent (code : Nat)
deriving DecidableEq

/-- The control flow of `main` (main.py lines 105-168) as the ordered list
of observable events.  `cfg` stands for the settings returned by
`load_config` (config-file reading is external I/O; with no config file
present it equals `load_config_DEFAULT`).  Modelled from the spec:
`load_custom_pinyin_from_directory` raises a configuration error exactly
when the directory is missing, which the `try` block of main.py lines
157-168 turns into an error print and `sys.exit(1)`. -/
def mainRun (fs : Fs) (args : Args) (script_dir : List Char) (cfg : ConfigSettings) :
    List Event :=
  if args.create_config = true then
    [Event.createConfigFile (script_dir ++ '/' :: "config.ini".toList)
      create_default_config_settings]
  else
    Event.loadConfigEvent ::
      match checkInputPath fs (resolvedInput args script_dir cfg) with
      | .exitOne => [Event.printErrorEvent, Event.exitEvent 1]
      | .proceed input' =>
          Event.loadOverridesEvent (resolvedCustom args script_dir cfg) ::
            if fs.isdir (resolvedCustom args script_dir cfg) = true then
              [Event.processFilesEvent input' (resolvedOutput args script_dir cfg)]
            else
              [Event.printErrorEvent, Event.exitEvent 1]

/-- A pronunciation token is plain when it contains no separator, no
trailing-whitespace character and no tab; tokens read by the Override
Table Builder are whitespace-delimited and therefore plain. -/
abbrev plainToken (seps : List Char) (t : List Char) : Prop :=
  ∀ c ∈ t, c ∉ seps ∧ isWS c = false ∧ c ≠ '\t'

/-- The separator characters are neither whitespace nor tab (true of the
default separators `;` and `[`). -/
abbrev sepsOK (seps : List Char) : Prop :=
  ∀ c ∈ seps, isWS c = false ∧ c ≠ '\t'

/-- Every table entry's first accepted pronunciation (its head, i.e. the
single element of `take 1`) is a plain token. -/
abbrev tableHeadsPlain (table : OverrideTable) (seps : List Char) : Prop :=
  ∀ e ∈ table, ∀ a0 ∈ e.2.take 1, plainToken seps a0

/-- Discriminator for override-table build events. -/
def isLoadOverridesEvent : Event → Bool
  | Event.loadOverridesEvent _ => true
  | _ => false

/-- Test filesystem on which every path exists and every path is a
directory. -/
def fsAll : Fs :=
  ⟨fun _ => true, fun _ => false, fun _ => true, fun _ h => Bool.noConfusion h⟩

/-- Test filesystem with no paths at all. -/
def fsNone : Fs :=
  ⟨fun _ => false, fun _ => false, fun _ => false, fun _ h => Bool.noConfusion h⟩

/-- Test filesystem where every path exists but none is a directory. -/
def fsNoCustom : Fs :=
  ⟨fun _ => true, fun _ => false, fun _ => false, fun _ h => Bool.noConfusion h⟩

/-- Test filesystem for the Wine-path translation: only `/data` exists. -/
def fsWine : Fs :=
  ⟨fun p => decide (p = "/data".toList), fun _ => false, fun _ => true,
    fun _ h => Bool.noConfusion h⟩

/-- Arguments with no options given. -/
def args0 : Args := ⟨none, none, none, false⟩

/-- Arguments requesting only `--create-config`. -/
def argsCreate : Args := ⟨none, none, none, true⟩

/-- Arguments naming a relative input `data` and absolute output and
custom-pinyin directories. -/
def argsWine : Args := ⟨some "data".toList, some "/out".toList, some "/py".toList, false⟩

/-- If the head of a list is `some a`, then `a` is a member. -/
lemma head?_some_mem {α : Type} {l : List α} {a : α} (h : l.head? = some a) : a ∈ l := by
  cases l with
  | nil => exact absurd h (by simp)
  | cons b t =>
      simp only [List.head?_cons, Option.some.injEq] at h
      subst h
      exact List.mem_cons_self b t

/-- Head of an append with a nonempty left part. -/
lemma head?_append_left {α : Type} (l m : List α) (h : l ≠ []) :
    (l ++ m).head? = l.head? := by
  cases l with
  | nil => exact absurd rfl h
  | cons x xs => rfl

/-- The last character of `a ++ c :: m` is the last character of `c :: m`. -/
lemma lastChar?_append_cons (a : List Char) (c : Char) (m : List Char) :
    lastChar? (a ++ c :: m) = lastChar? (c :: m) := by
  unfold lastChar?
  rw [List.reverse_append]
  exact head?_append_left _ _ (by simp)

/-- Last character of a cons. -/
lemma lastChar?_cons (c : Char) (m : List Char) :
    lastChar? (c :: m) = if m = [] then some c else lastChar? m := by
  unfold lastChar?
  rw [List.reverse_cons]
  by_cases h : m = []
  · subst h; simp
  · rw [if_neg h, head?_append_left _ _ (by simpa using h)]

/-- The empty list ends acceptably. -/
lemma endsOK_nil : endsOK [] := by
  intro c h
  simp [lastChar?] at h

/-- Ending condition across a tab-joined extension. -/
lemma endsOK_append_tab (a m : List Char) :
    endsOK (a ++ '\t' :: m) ↔ (m = [] ∨ endsOK m) := by
  unfold endsOK
  rw [lastChar?_append_cons, lastChar?_cons]
  by_cases h : m = []
  · subst h
    rw [if_pos rfl]
    constructor
    · intro _
      exact Or.inl rfl
    · intro _ c hc
      injection hc with hc
      subst hc
      decide
  · rw [if_neg h]
    simp [h]

/-- The body and trailing whitespace reassemble to the original line. -/
lemma splitTrailingWS_append : ∀ l : List Char,
    (splitTrailingWS l).1 ++ (splitTrailingWS l).2 = l
  | [] => rfl
  | c :: rest => by
      have ih := splitTrailingWS_append rest
      by_cases h : (splitTrailingWS rest).1 = [] ∧ isWS c = true
      · simp only [splitTrailingWS, if_pos h, List.nil_append]
        rw [h.1] at ih
        rw [List.nil_append] at ih
        rw [ih]
      · simp only [splitTrailingWS, if_neg h, List.cons_append, ih]

/-- Every character of the trailing-whitespace part is whitespace. -/
lemma splitTrailingWS_snd_ws : ∀ l : List Char, ∀ c ∈ (splitTrailingWS l).2, isWS c = true
  | [] => by intro c hc; simp [splitTrailingWS] at hc
  | c :: rest => by
      intro d hd
      have ih := splitTrailingWS_snd_ws rest
      by_cases h : (splitTrailingWS rest).1 = [] ∧ isWS c = true
      · simp only [splitTrailingWS, if_pos h] at hd
        rcases List.mem_cons.mp hd with h1 | h1
        · subst h1; exact h.2
        · exact ih d h1
      · simp only [splitTrailingWS, if_neg h] at hd
        exact ih d hd

/-- The body part never ends in trailing whitespace. -/
lemma splitTrailingWS_fst_endsOK : ∀ l : List Char, endsOK (splitTrailingWS l).1
  | [] => endsOK_nil
  | c :: rest => by
      have ih := splitTrailingWS_fst_endsOK rest
      by_cases h : (splitTrailingWS rest).1 = [] ∧ isWS c = true
      · simp only [splitTrailingWS, if_pos h]
        exact endsOK_nil
      · simp only [splitTrailingWS, if_neg h]
        intro d hd
        rw [lastChar?_cons] at hd
        by_cases hb : (splitTrailingWS rest).1 = []
        · rw [if_pos hb] at hd
          injection hd with hd
          subst hd
          cases hx : isWS c with
          | false => rfl
          | true => exact absurd ⟨hb, hx⟩ h
        · rw [if_neg hb] at hd
          exact ih d hd

/-- Splitting an all-whitespace list yields an empty body. -/
lemma splitTrailingWS_all_ws : ∀ t : List Char, (∀ c ∈ t, isWS c = true) →
    splitTrailingWS t = ([], t)
  | [] => by intro _; rfl
  | c :: rest => by
      intro h
      have ih := splitTrailingWS_all_ws rest (fun d hd => h d (List.mem_cons_of_mem c hd))
      have hc : isWS c = true := h c (List.mem_cons_self c rest)
      simp [splitTrailingWS, ih, hc]

/-- Splitting recovers a body/trailing decomposition exactly. -/
lemma splitTrailingWS_of_append : ∀ body tw : List Char,
    (∀ c ∈ tw, isWS c = true) → endsOK body →
    splitTrailingWS (body ++ tw) = (body, tw)
  | [], tw => by
      intro h1 _
      rw [List.nil_append]
      exact splitTrailingWS_all_ws tw h1
  | c :: body', tw => by
      intro h1 h2
      have h2' : endsOK body' := by
        intro d hd
        apply h2 d
        rw [lastChar?_cons]
        have hb : body' ≠ [] := by
          intro hb
          rw [hb] at hd
          simp [lastChar?] at hd
        rw [if_neg hb]
        exact hd
      have ih := splitTrailingWS_of_append body' tw h1 h2'
      rw [List.cons_append]
      by_cases hb : body' = []
      · subst hb
        rw [List.nil_append] at ih ⊢
        have hcws : isWS c = false := by
          apply h2 c
          rw [lastChar?_cons, if_pos rfl]
        simp only [splitTrailingWS, ih]
        rw [if_neg]
        intro hcontr
        rw [hcws] at hcontr
        exact absurd hcontr.2 (by simp)
      · simp only [splitTrailingWS, ih]
        rw [if_neg]
        intro hcontr
        exact hb hcontr.1

/-- `splitTab` always returns at least one column. -/
lemma splitTab_ne_nil : ∀ l : List Char, splitTab l ≠ []
  | [] => by simp [splitTab]
  | c :: rest => by
      by_cases h : c = '\t'
      · simp [splitTab, h]
      · simp [splitTab, h]

/-- Joining the columns of a split body reproduces the body. -/
lemma joinTab_splitTab : ∀ l : List Char, joinTab (splitTab l) = l
  | [] => rfl
  | c :: rest => by
      have ih := joinTab_splitTab rest
      obtain ⟨a, as, ha⟩ : ∃ a as, splitTab rest = a :: as := by
        cases hq : splitTab rest with
        | nil => exact absurd hq (splitTab_ne_nil rest)
        | cons a as => exact ⟨a, as, rfl⟩
      by_cases h : c = '\t'
      · subst h
        simp only [splitTab, if_pos rfl]
        rw [ha]
        simp only [joinTab]
        rw [List.nil_append, ← ha, ih]
      · simp only [splitTab, if_neg h]
        rw [ha]
        simp only [List.headI, List.tail_cons]
        cases as with
        | nil =>
            rw [joinTab]
            rw [ha] at ih
            rw [joinTab] at ih
            rw [ih]
        | cons b bs =>
            rw [joinTab, List.cons_append]
            rw [ha] at ih
            rw [joinTab] at ih
            rw [ih]

/-- No column produced by `splitTab` contains a tab character. -/
lemma splitTab_no_tab : ∀ l : List Char, ∀ col ∈ splitTab l, '\t' ∉ col
  | [] => by
      intro col hcol
      simp [splitTab] at hcol
      simp [hcol]
  | c :: rest => by
      intro col hcol
      have ih := splitTab_no_tab rest
      obtain ⟨a, as, ha⟩ : ∃ a as, splitTab rest = a :: as := by
        cases hq : splitTab rest with
        | nil => exact absurd hq (splitTab_ne_nil rest)
        | cons a as => exact ⟨a, as, rfl⟩
      by_cases h : c = '\t'
      · subst h
        simp only [splitTab, if_pos rfl] at hcol
        rcases List.mem_cons.mp hcol with h1 | h1
        · subst h1; simp
        · exact ih col h1
      · simp only [splitTab, if_neg h, ha] at hcol
        simp only [List.headI, List.tail_cons] at hcol
        rcases List.mem_cons.mp hcol with h1 | h1
        · subst h1
          intro hmem
          rcases List.mem_cons.mp hmem with h2 | h2
          · exact h h2.symm
          · exact ih a (ha ▸ List.mem_cons_self a as) h2
        · exact ih col (ha ▸ List.mem_cons_of_mem a h1)

/-- A tab-free body splits into a single column. -/
lemma splitTab_single : ∀ col : List Char, '\t' ∉ col → splitTab col = [col]
  | [] => by intro _; rfl
  | c :: rest => by
      intro h
      have hc : ¬(c = '\t') := fun hc => h (hc ▸ List.mem_cons_self c rest)
      have ih := splitTab_single rest (fun hm => h (List.mem_cons_of_mem c hm))
      simp only [splitTab, if_neg hc, ih]
      rfl

/-- Splitting a tab-free column followed by a tab peels off that column. -/
lemma splitTab_append_tab : ∀ col rest : List Char, '\t' ∉ col →
    splitTab (col ++ '\t' :: rest) = col :: splitTab rest
  | [], rest => by
      intro _
      rw [List.nil_append]
      simp [splitTab]
  | c :: col', rest => by
      intro h
      have hc : ¬(c = '\t') := fun hc => h (hc ▸ List.mem_cons_self c col')
      have ih := splitTab_append_tab col' rest (fun hm => h (List.mem_cons_of_mem c hm))
      rw [List.cons_append]
      simp only [splitTab, if_neg hc, ih]
      simp only [List.headI, List.tail_cons]

/-- Splitting the tab-join of tab-free columns recovers the columns. -/
lemma splitTab_joinTab : ∀ cols : List (List Char), cols ≠ [] →
    (∀ col ∈ cols, '\t' ∉ col) → splitTab (joinTab cols) = cols
  | [], hne, _ => absurd rfl hne
  | [a], _, h => by
      simp only [joinTab]
      exact splitTab_single a (h a (List.mem_cons_self a []))
  | a :: b :: bs, _, h => by
      simp only [joinTab]
      rw [splitTab_append_tab a (joinTab (b :: bs)) (h a (List.mem_cons_self a (b :: bs)))]
      rw [splitTab_joinTab (b :: bs) (by simp) (fun col hcol => h col (List.mem_cons_of_mem a hcol))]

/-- Serializing any parsed line reproduces the raw line byte-for-byte. -/
lemma serializeLine_parseLine (b : Bool) (raw : List Char) :
    serializeLine (parseLine b raw) = raw := by
  unfold parseLine
  by_cases h : (b = false || startsWithHash raw) = true
  · rw [if_pos h]
    rfl
  · rw [if_neg h]
    cases hq : splitTab (bodyOf raw) with
    | nil => exact absurd hq (splitTab_ne_nil (bodyOf raw))
    | cons w cols =>
        cases cols with
        | nil =>
            simp only [serializeLine]
        | cons p rest =>
            simp only [serializeLine]
            rw [← hq, joinTab_splitTab]
            exact splitTrailingWS_append raw

/-- With no separator character in the field, the whole field is the base. -/
lemma splitAuxCode_no_sep : ∀ (seps b : List Char), (∀ x ∈ b, x ∉ seps) →
    splitAuxCode seps b = ⟨b, none, none⟩
  | _, [], _ => rfl
  | seps, c :: rest, h => by
      have hc : c ∉ seps := h c (List.mem_cons_self c rest)
      have ih := splitAuxCode_no_sep seps rest (fun x hx => h x (List.mem_cons_of_mem c hx))
      simp only [splitAuxCode, if_neg hc, ih]

/-- Splitting a separator-free base followed by a separator and a tail
recovers exactly those parts. -/
lemma splitAuxCode_append : ∀ (seps b : List Char) (c : Char) (a : List Char),
    (∀ x ∈ b, x ∉ seps) → c ∈ seps →
    splitAuxCode seps (b ++ c :: a) = ⟨b, some c, some a⟩
  | seps, [], c, a, _, hc => by
      rw [List.nil_append]
      simp only [splitAuxCode, if_pos hc]
  | seps, x :: b', c, a, h, hc => by
      have hx : x ∉ seps := h x (List.mem_cons_self x b')
      have ih := splitAuxCode_append seps b' c a (fun y hy => h y (List.mem_cons_of_mem x hy)) hc
      rw [List.cons_append]
      simp only [splitAuxCode, if_neg hx, ih]

/-- A split that found a separator reconstructs the original field. -/
lemma splitAuxCode_some_inv : ∀ (seps p b : List Char) (c : Char) (a : List Char),
    splitAuxCode seps p = ⟨b, some c, some a⟩ →
    p = b ++ c :: a ∧ c ∈ seps
  | seps, [], b, c, a, h => by
      simp [splitAuxCode] at h
  | seps, x :: rest, b, c, a, h => by
      by_cases hx : x ∈ seps
      · simp only [splitAuxCode, if_pos hx, SplitPinyin.mk.injEq] at h
        obtain ⟨hb, hsep, haux⟩ := h
        injection hsep with hsep
        injection haux with haux
        subst hb; subst hsep; subst haux
        exact ⟨rfl, hx⟩
      · simp only [splitAuxCode, if_neg hx, SplitPinyin.mk.injEq] at h
        obtain ⟨hb, hsep, haux⟩ := h
        have hrec : splitAuxCode seps rest = ⟨(splitAuxCode seps rest).base, some c, some a⟩ := by
          rw [← hsep, ← haux]
        obtain ⟨hp, hcs⟩ := splitAuxCode_some_inv seps rest _ c a hrec
        subst hb
        constructor
        · rw [List.cons_append, ← hp]
        · exact hcs

/-- A successful table lookup comes from a table entry. -/
lemma lookupOverride_mem : ∀ (t : OverrideTable) (w : List Char) (acc : List (List Char)),
    lookupOverride t w = some acc → (w, acc) ∈ t
  | [], _, _, h => by cases h
  | (w', ps) :: rest, w, acc, h => by
      simp only [lookupOverride] at h
      by_cases hw : w = w'
      · rw [if_pos hw] at h
        injection h with h
        subst hw; subst h
        exact List.mem_cons_self _ _
      · rw [if_neg hw] at h
        exact List.mem_cons_of_mem _ (lookupOverride_mem rest w acc h)

/-- If the split base is already accepted, the engine decides no change. -/
lemma decideCorrection_base_accepted (table : OverrideTable) (seps : List Char)
    (word q : List Char) (acc : List (List Char))
    (hlk : lookupOverride table word = some acc)
    (hb : (splitAuxCode seps q).base ∈ acc) :
    decideCorrection table seps word q = ⟨false, q⟩ := by
  simp only [decideCorrection, hlk]
  rw [if_pos hb]

/-- Full case analysis for the engine's decision: either no change with the
field kept, or a change whose new field is the first accepted pronunciation
with the original separator and auxiliary tail re-attached. -/
lemma decideCorrection_spec (table : OverrideTable) (seps : List Char)
    (word p : List Char) :
    decideCorrection table seps word p = ⟨false, p⟩ ∨
    ((decideCorrection table seps word p).changed = true ∧
      ∃ accepted a0, lookupOverride table word = some accepted ∧
        accepted.head? = some a0 ∧ (splitAuxCode seps p).base ∉ accepted ∧
        ((decideCorrection table seps word p).new_pinyin_field = a0 ∨
          ∃ c aux, c ∈ seps ∧ p = (splitAuxCode seps p).base ++ c :: aux ∧
            (decideCorrection table seps word p).new_pinyin_field = a0 ++ c :: aux)) := by
  cases hq : lookupOverride table word with
  | none =>
      left
      simp only [decideCorrection, hq]
  | some accepted =>
      by_cases hb : (splitAuxCode seps p).base ∈ accepted
      · left
        simp only [decideCorrection, hq, if_pos hb]
      · cases hh : accepted.head? with
        | none =>
            left
            simp only [decideCorrection, hq, if_neg hb, hh]
        | some a0 =>
            cases hs : (splitAuxCode seps p).separator_char with
            | none =>
                right
                simp only [decideCorrection, hq, if_neg hb, hh, hs]
                exact ⟨by trivial, accepted, a0, by trivial, hh, hb, Or.inl (by trivial)⟩
            | some c =>
                cases ha : (splitAuxCode seps p).auxiliary with
                | none =>
                    right
                    simp only [decideCorrection, hq, if_neg hb, hh, hs, ha]
                    exact ⟨by trivial, accepted, a0, by trivial, hh, hb, Or.inl (by trivial)⟩
                | some aux =>
                    have hrec : splitAuxCode seps p =
                        ⟨(splitAuxCode seps p).base, some c, some aux⟩ := by
                      rw [← hs, ← ha]
                    obtain ⟨hp, hcs⟩ := splitAuxCode_some_inv seps p _ c aux hrec
                    right
                    simp only [decideCorrection, hq, if_neg hb, hh, hs, ha]
                    exact ⟨by trivial, accepted, a0, by trivial, hh, hb,
                      Or.inr ⟨c, aux, hcs, hp, by trivial⟩⟩

/-- C4: for every raw line parsed as a DataLine, serializing it back with
no field changed reproduces the original raw line byte-for-byte, trailing
whitespace, column count and column order included. -/
theorem C4_parse_serialize_roundtrip (b : Bool) (raw : List Char)
    (w p : List Char) (rest : List (List Char)) (tw : List Char)
    (h : parseLine b raw = .dataLine w p rest tw) :
    serializeLine (.dataLine w p rest tw) = raw := by
  rw [← h]
  exact serializeLine_parseLine b raw

/-- Witness for C4 on the data line `shi<TAB>shi4<TAB>10<SPACE>`. -/
theorem C4_parse_serialize_roundtrip_witness :
    serializeLine (DictionaryLine.dataLine "shi".toList "shi4".toList ["10".toList] [' ']) =
      "shi\tshi4\t10 ".toList :=
  C4_parse_serialize_roundtrip true "shi\tshi4\t10 ".toList "shi".toList "shi4".toList
    ["10".toList] [' '] (by decide)

/-- C1: a data line whose word is not a key of the Override Table passes
through the correction pipeline byte-for-byte unchanged. -/
theorem C1_passthrough (table : OverrideTable) (seps : List Char) (b : Bool)
    (raw w p : List Char) (rest : List (List Char)) (tw : List Char)
    (h : parseLine b raw = .dataLine w p rest tw)
    (habs : lookupOverride table w = none) :
    correctLine table seps b raw = raw := by
  unfold correctLine
  rw [h]
  simp only [decideCorrection, habs]
  rw [← h]
  exact serializeLine_parseLine b raw

/-- Witness for C1: the word `shi` is not a key of a table keyed on `ni`. -/
theorem C1_passthrough_witness :
    correctLine [("ni".toList, ["ni2".toList])] defaultSeps true "shi\tshi4".toList =
      "shi\tshi4".toList :=
  C1_passthrough [("ni".toList, ["ni2".toList])] defaultSeps true "shi\tshi4".toList
    "shi".toList "shi4".toList [] [] (by decide) (by decide)

/-- C5: when the word is overridden, the pinyin field has an auxiliary
tail, and the base differs from every accepted pronunciation, the engine
replaces only the base with the first accepted pronunciation, re-attaching
the original separator character and auxiliary suffix unchanged. -/
theorem C5_auxiliary_preserved (table : OverrideTable) (seps : List Char)
    (word p : List Char) (accepted : List (List Char)) (a0 base : List Char)
    (c : Char) (aux : List Char)
    (hlk : lookupOverride table word = some accepted)
    (hh : accepted.head? = some a0)
    (hsplit : splitAuxCode seps p = ⟨base, some c, some aux⟩)
    (hdiff : base ∉ accepted) :
    p = base ++ c :: aux ∧
    decideCorrection table seps word p = ⟨true, a0 ++ c :: aux⟩ := by
  obtain ⟨hp, _⟩ := splitAuxCode_some_inv seps p base c aux hsplit
  refine ⟨hp, ?_⟩
  simp only [decideCorrection, hlk, hsplit, hh]
  rw [if_neg hdiff]

/-- Witness for C5, the spec's auxiliary-preservation example: field
`bei;1` with override to `bei4` becomes `bei4;1`. -/
theorem C5_auxiliary_preserved_witness :
    "bei;1".toList = "bei".toList ++ ';' :: "1".toList ∧
    decideCorrection [("w".toList, ["bei4".toList])] defaultSeps "w".toList "bei;1".toList =
      ⟨true, "bei4".toList ++ ';' :: "1".toList⟩ :=
  C5_auxiliary_preserved [("w".toList, ["bei4".toList])] defaultSeps "w".toList
    "bei;1".toList ["bei4".toList] "bei4".toList "bei".toList ';' "1".toList
    (by decide) (by decide) (by decide) (by decide)

/-- C7: the default auxiliary-code separator pattern is the character class
consisting of exactly the two literal characters semicolon and opening
bracket, both in the built-in configuration defaults and in the generated
default config file. -/
theorem C7_default_separator_class :
    load_config_DEFAULT.aux_sep_regex = "[;\\[]".toList ∧
    create_default_config_settings.aux_sep_regex = "[;\\[]".toList ∧
    charClassOf "[;\\[]".toList = [';', '['] ∧
    charClassOf load_config_DEFAULT.aux_sep_regex = defaultSeps := by
  refine ⟨rfl, rfl, ?_, ?_⟩ <;> decide

/-- On any filesystem, a path that does not exist is not a file. -/
lemma isfile_false_of_not_exists (fs : Fs) (p : List Char)
    (h : fs.pathExists p = false) : fs.isfile p = false := by
  cases hq : fs.isfile p with
  | false => rfl
  | true => exact absurd (fs.isfile_exists p hq) (by rw [h]; simp)

/-- The trace of a run whose input check fails. -/
lemma mainRun_of_exitOne (fs : Fs) (args : Args) (script_dir : List Char)
    (cfg : ConfigSettings)
    (hcc : args.create_config = false)
    (hchk : checkInputPath fs (resolvedInput args script_dir cfg) = .exitOne) :
    mainRun fs args script_dir cfg =
      [Event.loadConfigEvent, Event.printErrorEvent, Event.exitEvent 1] := by
  unfold mainRun
  rw [if_neg (by simp [hcc])]
  simp only [hchk]

/-- The trace of a run whose input check passes. -/
lemma mainRun_of_proceed (fs : Fs) (args : Args) (script_dir : List Char)
    (cfg : ConfigSettings) (input' : List Char)
    (hcc : args.create_config = false)
    (hchk : checkInputPath fs (resolvedInput args script_dir cfg) = .proceed input') :
    mainRun fs args script_dir cfg =
      Event.loadConfigEvent ::
        Event.loadOverridesEvent (resolvedCustom args script_dir cfg) ::
          (if fs.isdir (resolvedCustom args script_dir cfg) = true then
            [Event.processFilesEvent input' (resolvedOutput args script_dir cfg)]
          else [Event.printErrorEvent, Event.exitEvent 1]) := by
  unfold mainRun
  rw [if_neg (by simp [hcc])]
  simp only [hchk]

/-- C2 counterexample: with script directory `Z:` and relative input
`data`, the resolved input path `Z:/data` does not exist, yet the run does
not print an error or exit; it proceeds to process files at the translated
path `/data`. -/
theorem C2_exit_counterexample :
    fsWine.pathExists (resolvedInput argsWine "Z:".toList load_config_DEFAULT) = false ∧
    Event.exitEvent 1 ∉ mainRun fsWine argsWine "Z:".toList load_config_DEFAULT ∧
    Event.printErrorEvent ∉ mainRun fsWine argsWine "Z:".toList load_config_DEFAULT ∧
    Event.processFilesEvent "/data".toList "/out".toList ∈
      mainRun fsWine argsWine "Z:".toList load_config_DEFAULT := by
  decide

/-- C2 (amended): if the resolved input path does not exist — and it is
not the case that the path starts with `Z:` and its Wine translation
exists — the program prints an error and exits with status 1 right after
loading the configuration, before loading overrides or processing any
files. -/
theorem C2_missing_input_exits (fs : Fs) (args : Args) (script_dir : List Char)
    (cfg : ConfigSettings)
    (hcc : args.create_config = false)
    (hex : fs.pathExists (resolvedInput args script_dir cfg) = false)
    (hz : startsWithZColon (resolvedInput args script_dir cfg) = true →
      fs.pathExists
        (backslashToSlash (removeFirstZColon (resolvedInput args script_dir cfg))) = false) :
    mainRun fs args script_dir cfg =
      [Event.loadConfigEvent, Event.printErrorEvent, Event.exitEvent 1] := by
  have hisf := isfile_false_of_not_exists fs _ hex
  have hchk : checkInputPath fs (resolvedInput args script_dir cfg) = .exitOne := by
    unfold checkInputPath
    rw [if_pos ⟨hex, hisf⟩]
    cases hzq : startsWithZColon (resolvedInput args script_dir cfg) with
    | false => rw [if_neg (by simp)]
    | true => rw [if_pos rfl, if_neg (by rw [hz hzq]; simp)]
  exact mainRun_of_exitOne fs args script_dir cfg hcc hchk

/-- Witness for the amended C2: on an empty filesystem with default
arguments the run exits with status 1 after the config load. -/
theorem C2_missing_input_exits_witness :
    mainRun fsNone args0 "/app".toList load_config_DEFAULT =
      [Event.loadConfigEvent, Event.printErrorEvent, Event.exitEvent 1] :=
  C2_missing_input_exits fsNone args0 "/app".toList load_config_DEFAULT rfl
    (by decide) (by decide)

/-- C3: when the resolved input path does not exist but starts with `Z:`,
the check strips the first `Z:`, replaces every backslash with a slash,
and proceeds with the translated path when that path exists; only when the
translated path is also missing does the run exit with status 1. -/
theorem C3_wine_translation (fs : Fs) (args : Args) (script_dir : List Char)
    (cfg : ConfigSettings)
    (hcc : args.create_config = false)
    (hex : fs.pathExists (resolvedInput args script_dir cfg) = false)
    (hzz : startsWithZColon (resolvedInput args script_dir cfg) = true) :
    (fs.pathExists
        (backslashToSlash (removeFirstZColon (resolvedInput args script_dir cfg))) = true →
      checkInputPath fs (resolvedInput args script_dir cfg) =
        .proceed (backslashToSlash (removeFirstZColon (resolvedInput args script_dir cfg)))) ∧
    (fs.pathExists
        (backslashToSlash (removeFirstZColon (resolvedInput args script_dir cfg))) = false →
      mainRun fs args script_dir cfg =
        [Event.loadConfigEvent, Event.printErrorEvent, Event.exitEvent 1]) := by
  have hisf := isfile_false_of_not_exists fs _ hex
  constructor
  · intro ht
    unfold checkInputPath
    rw [if_pos ⟨hex, hisf⟩, if_pos hzz, if_pos ht]
  · intro hf
    have hchk : checkInputPath fs (resolvedInput args script_dir cfg) = .exitOne := by
      unfold checkInputPath
      rw [if_pos ⟨hex, hisf⟩, if_pos hzz, if_neg (by rw [hf]; simp)]
    exact mainRun_of_exitOne fs args script_dir cfg hcc hchk

/-- Witness for C3: the missing `Z:/data` translates to `/data`, which
exists, and the check proceeds with it. -/
theorem C3_wine_translation_witness :
    checkInputPath fsWine (resolvedInput argsWine "Z:".toList load_config_DEFAULT) =
      .proceed "/data".toList :=
  (C3_wine_translation fsWine argsWine "Z:".toList load_config_DEFAULT rfl
    (by decide) (by decide)).1 (by decide)

/-- C8: in every run that processes files, the Override Table is built
exactly once, and the `load_custom_pinyin_from_directory` call precedes
the `process_files` call in the trace. -/
theorem C8_overrides_once_before_processing (fs : Fs) (args : Args)
    (script_dir : List Char) (cfg : ConfigSettings) (i o : List Char)
    (h : Event.processFilesEvent i o ∈ mainRun fs args script_dir cfg) :
    mainRun fs args script_dir cfg =
      [Event.loadConfigEvent,
        Event.loadOverridesEvent (resolvedCustom args script_dir cfg),
        Event.processFilesEvent i o] ∧
    (mainRun fs args script_dir cfg).countP
      (fun e => isLoadOverridesEvent e = true) = 1 := by
  by_cases hcc : args.create_config = true
  · exfalso
    unfold mainRun at h
    rw [if_pos hcc] at h
    simp at h
  · have hcc' : args.create_config = false := by
      cases hq : args.create_config with
      | false => rfl
      | true => exact absurd hq hcc
    cases hchk : checkInputPath fs (resolvedInput args script_dir cfg) with
    | exitOne =>
        exfalso
        rw [mainRun_of_exitOne fs args script_dir cfg hcc' hchk] at h
        simp at h
    | proceed input' =>
        have hm := mainRun_of_proceed fs args script_dir cfg input' hcc' hchk
        by_cases hd : fs.isdir (resolvedCustom args script_dir cfg) = true
        · rw [if_pos hd] at hm
          rw [hm] at h
          simp only [List.mem_cons, List.not_mem_nil, or_false] at h
          rcases h with h | h | h
          · exact Event.noConfusion h
          · exact Event.noConfusion h
          · have h1 : i = input' ∧ o = resolvedOutput args script_dir cfg := by
              injection h with h1 h2
              exact ⟨h1, h2⟩
            rcases h1 with ⟨rfl, rfl⟩
            constructor
            · exact hm
            · rw [hm]
              rfl
        · exfalso
          rw [if_neg hd] at hm
          rw [hm] at h
          simp at h

/-- Witness for C8: a run on a filesystem where everything exists builds
the table once and then processes files. -/
theorem C8_overrides_once_before_processing_witness :
    mainRun fsAll args0 "/app".toList load_config_DEFAULT =
      [Event.loadConfigEvent,
        Event.loadOverridesEvent (resolvedCustom args0 "/app".toList load_config_DEFAULT),
        Event.processFilesEvent (resolvedInput args0 "/app".toList load_config_DEFAULT)
          (resolvedOutput args0 "/app".toList load_config_DEFAULT)] ∧
    (mainRun fsAll args0 "/app".toList load_config_DEFAULT).countP
      (fun e => isLoadOverridesEvent e = true) = 1 :=
  C8_overrides_once_before_processing fsAll args0 "/app".toList load_config_DEFAULT
    (resolvedInput args0 "/app".toList load_config_DEFAULT)
    (resolvedOutput args0 "/app".toList load_config_DEFAULT) (by decide)

/-- C9: when the custom-pinyin directory is missing, loading the overrides
raises, the orchestrator prints the error and exits with status 1, and
`process_files` is never called — the run does not continue with an empty
table. -/
theorem C9_missing_custom_dir_aborts (fs : Fs) (args : Args)
    (script_dir : List Char) (cfg : ConfigSettings) (input' : List Char)
    (hcc : args.create_config = false)
    (hchk : checkInputPath fs (resolvedInput args script_dir cfg) = .proceed input')
    (hdir : fs.isdir (resolvedCustom args script_dir cfg) = false) :
    mainRun fs args script_dir cfg =
      [Event.loadConfigEvent,
        Event.loadOverridesEvent (resolvedCustom args script_dir cfg),
        Event.printErrorEvent, Event.exitEvent 1] ∧
    ∀ i o, Event.processFilesEvent i o ∉ mainRun fs args script_dir cfg := by
  have hm := mainRun_of_proceed fs args script_dir cfg input' hcc hchk
  rw [if_neg (by simp [hdir])] at hm
  refine ⟨hm, ?_⟩
  intro i o hmem
  rw [hm] at hmem
  simp at hmem

/-- Witness for C9: input exists but the custom directory does not; the
run aborts with status 1 right after the failed override load. -/
theorem C9_missing_custom_dir_aborts_witness :
    mainRun fsNoCustom args0 "/app".toList load_config_DEFAULT =
      [Event.loadConfigEvent,
        Event.loadOverridesEvent (resolvedCustom args0 "/app".toList load_config_DEFAULT),
        Event.printErrorEvent, Event.exitEvent 1] :=
  (C9_missing_custom_dir_aborts fsNoCustom args0 "/app".toList load_config_DEFAULT
    (resolvedInput args0 "/app".toList load_config_DEFAULT) rfl (by decide) rfl).1

/-- C10: with `--create-config` the program only writes the default
`config.ini` into the script directory and returns: no configuration is
loaded, no override table is built, and no files are processed. -/
theorem C10_create_config_only (fs : Fs) (args : Args) (script_dir : List Char)
    (cfg : ConfigSettings) (hcc : args.create_config = true) :
    mainRun fs args script_dir cfg =
      [Event.createConfigFile (script_dir ++ '/' :: "config.ini".toList)
        create_default_config_settings] ∧
    Event.loadConfigEvent ∉ mainRun fs args script_dir cfg ∧
    (∀ d, Event.loadOverridesEvent d ∉ mainRun fs args script_dir cfg) ∧
    (∀ i o, Event.processFilesEvent i o ∉ mainRun fs args script_dir cfg) := by
  have hm : mainRun fs args script_dir cfg =
      [Event.createConfigFile (script_dir ++ '/' :: "config.ini".toList)
        create_default_config_settings] := by
    unfold mainRun
    rw [if_pos hcc]
  refine ⟨hm, ?_, ?_, ?_⟩
  · rw [hm]
    simp
  · intro d hmem
    rw [hm] at hmem
    simp at hmem
  · intro i o hmem
    rw [hm] at hmem
    simp at hmem

/-- Witness for C10: a `--create-config` run only writes the default
config file. -/
theorem C10_create_config_only_witness :
    mainRun fsAll argsCreate "/app".toList load_config_DEFAULT =
      [Event.createConfigFile ("/app".toList ++ '/' :: "config.ini".toList)
        create_default_config_settings] :=
  (C10_create_config_only fsAll argsCreate "/app".toList load_config_DEFAULT rfl).1

/-- A last character is a member of its list. -/
lemma lastChar?_mem {l : List Char} {c : Char} (h : lastChar? l = some c) : c ∈ l := by
  unfold lastChar? at h
  exact List.mem_reverse.mp (head?_some_mem h)

/-- Inversion of a successful data-line parse. -/
lemma parseLine_data_inv (b : Bool) (raw w p : List Char) (rest : List (List Char))
    (tw : List Char) (h : parseLine b raw = .dataLine w p rest tw) :
    b = true ∧ startsWithHash raw = false ∧
    splitTab (bodyOf raw) = w :: p :: rest ∧ tw = trailingWS raw := by
  by_cases hc : (b = false || startsWithHash raw) = true
  · unfold parseLine at h
    rw [if_pos hc] at h
    exact absurd h (by simp)
  · have hb : b = true := by
      cases hq : b with
      | false => exact absurd (by simp [hq]) hc
      | true => rfl
    have hsh : startsWithHash raw = false := by
      cases hq : startsWithHash raw with
      | false => rfl
      | true => exact absurd (by simp [hq]) hc
    unfold parseLine at h
    rw [if_neg hc] at h
    cases hq : splitTab (bodyOf raw) with
    | nil =>
        rw [hq] at h
        simp at h
    | cons a as =>
        cases as with
        | nil =>
            rw [hq] at h
            simp at h
        | cons a2 as2 =>
            rw [hq] at h
            simp only [DictionaryLine.dataLine.injEq] at h
            obtain ⟨h1, h2, h3, h4⟩ := h
            subst h1; subst h2; subst h3
            exact ⟨hb, hsh, rfl, h4.symm⟩

/-- The comment-marker test ignores everything after the first column
boundary. -/
lemma startsWithHash_mid (w m m' : List Char) :
    startsWithHash (w ++ '\t' :: m) = startsWithHash (w ++ '\t' :: m') := by
  cases w with
  | nil => rfl
  | cons c ws => rfl

/-- The comment-marker test ignores appended trailing whitespace. -/
lemma startsWithHash_append_body (w m tw : List Char) :
    startsWithHash ((w ++ '\t' :: m) ++ tw) = startsWithHash (w ++ '\t' :: m) := by
  cases w with
  | nil => rfl
  | cons c ws => rfl

/-- Reparsing a reserialized data line with a rewritten pinyin column
recovers exactly the rewritten data line, provided the new column has no
tab and (for a final column) does not end in whitespace. -/
lemma parseLine_reserialized (raw w p : List Char) (rest : List (List Char))
    (tw p' : List Char)
    (h : parseLine true raw = .dataLine w p rest tw)
    (hptab : '\t' ∉ p')
    (hend : rest = [] → endsOK p') :
    parseLine true (joinTab (w :: p' :: rest) ++ tw) = .dataLine w p' rest tw := by
  obtain ⟨_, hsh, hsplit, htw⟩ := parseLine_data_inv true raw w p rest tw h
  have hbody : joinTab (w :: p :: rest) = bodyOf raw := by
    have hj := joinTab_splitTab (bodyOf raw)
    rw [hsplit] at hj
    exact hj
  have hraw : raw = joinTab (w :: p :: rest) ++ tw := by
    rw [htw, hbody]
    exact (splitTrailingWS_append raw).symm
  have htww : ∀ c ∈ tw, isWS c = true := by
    rw [htw]
    exact splitTrailingWS_snd_ws raw
  have hbodyOK : endsOK (bodyOf raw) := splitTrailingWS_fst_endsOK raw
  have hwt : '\t' ∉ w := splitTab_no_tab (bodyOf raw) w (by rw [hsplit]; exact List.mem_cons_self _ _)
  have hrt : ∀ col ∈ rest, '\t' ∉ col := fun col hcol =>
    splitTab_no_tab (bodyOf raw) col
      (by rw [hsplit]; exact List.mem_cons_of_mem _ (List.mem_cons_of_mem _ hcol))
  have hendsOK' : endsOK (joinTab (w :: p' :: rest)) := by
    cases rest with
    | nil =>
        have : joinTab (w :: p' :: ([] : List (List Char))) = w ++ '\t' :: p' := rfl
        rw [this, endsOK_append_tab]
        exact Or.inr (hend rfl)
    | cons r1 rs =>
        have hb1 : joinTab (w :: p' :: r1 :: rs) =
            w ++ '\t' :: (p' ++ '\t' :: joinTab (r1 :: rs)) := rfl
        have hb2 : joinTab (w :: p :: r1 :: rs) =
            w ++ '\t' :: (p ++ '\t' :: joinTab (r1 :: rs)) := rfl
        have hne : p ++ '\t' :: joinTab (r1 :: rs) ≠ [] := by
          intro hcontr
          have := congrArg List.length hcontr
          simp at this
        have hold : endsOK (w ++ '\t' :: (p ++ '\t' :: joinTab (r1 :: rs))) := by
          rw [← hb2, hbody]
          exact hbodyOK
        have hJ : joinTab (r1 :: rs) = [] ∨ endsOK (joinTab (r1 :: rs)) := by
          rcases (endsOK_append_tab w _).mp hold with hcase | hcase
          · exact absurd hcase hne
          · exact (endsOK_append_tab p _).mp hcase
        rw [hb1, endsOK_append_tab]
        right
        rw [endsOK_append_tab]
        exact hJ
  have hsplitOut : splitTrailingWS (joinTab (w :: p' :: rest) ++ tw) =
      (joinTab (w :: p' :: rest), tw) :=
    splitTrailingWS_of_append _ tw htww hendsOK'
  have hshOut : startsWithHash (joinTab (w :: p' :: rest) ++ tw) = false := by
    have e1 : joinTab (w :: p' :: rest) = w ++ '\t' :: joinTab (p' :: rest) := rfl
    have e2 : joinTab (w :: p :: rest) = w ++ '\t' :: joinTab (p :: rest) := rfl
    rw [e1, startsWithHash_append_body,
      startsWithHash_mid w (joinTab (p' :: rest)) (joinTab (p :: rest)),
      ← startsWithHash_append_body w (joinTab (p :: rest)) tw, ← e2, ← hraw]
    exact hsh
  have hcols : splitTab (bodyOf (joinTab (w :: p' :: rest) ++ tw)) = w :: p' :: rest := by
    unfold bodyOf
    rw [hsplitOut]
    apply splitTab_joinTab
    · simp
    · intro col hcol
      rcases List.mem_cons.mp hcol with h1 | h1
      · rw [h1]; exact hwt
      · rcases List.mem_cons.mp h1 with h2 | h2
        · rw [h2]; exact hptab
        · exact hrt col h2
  unfold parseLine
  rw [if_neg (by simp [hshOut])]
  rw [hcols]
  unfold trailingWS
  rw [hsplitOut]

/-- A no-change decision leaves the whole line untouched. -/
lemma correctLine_of_unchanged (table : OverrideTable) (seps : List Char) (b : Bool)
    (raw w p : List Char) (rest : List (List Char)) (tw : List Char)
    (h : parseLine b raw = .dataLine w p rest tw)
    (hd : decideCorrection table seps w p = ⟨false, p⟩) :
    correctLine table seps b raw = raw := by
  unfold correctLine
  rw [h]
  simp only [hd]
  rw [← h]
  exact serializeLine_parseLine b raw

/-- Core of the idempotence argument: correcting a corrected line again
changes nothing, as long as the separators are not whitespace and every
first accepted pronunciation in the table is a plain token. -/
lemma correctLine_idem (table : OverrideTable) (seps : List Char)
    (hs : sepsOK seps) (ht : tableHeadsPlain table seps) (b : Bool) (raw : List Char) :
    correctLine table seps b (correctLine table seps b raw) =
      correctLine table seps b raw := by
  cases hq : parseLine b raw with
  | commentOrHeader r =>
      have h1 : correctLine table seps b raw = raw := by
        unfold correctLine
        rw [hq]
      rw [h1]
      exact h1
  | malformed r =>
      have h1 : correctLine table seps b raw = raw := by
        unfold correctLine
        rw [hq]
      rw [h1]
      exact h1
  | dataLine w p rest tw =>
      obtain ⟨hb, hsh, hsplit, htw⟩ := parseLine_data_inv b raw w p rest tw hq
      subst hb
      rcases decideCorrection_spec table seps w p with hd | ⟨hch, acc, a0, hlk, hh, hnb, hnew⟩
      · have h1 := correctLine_of_unchanged table seps true raw w p rest tw hq hd
        rw [h1]
        exact h1
      · have hout : correctLine table seps true raw =
            joinTab (w :: (decideCorrection table seps w p).new_pinyin_field :: rest) ++ tw := by
          unfold correctLine
          rw [hq]
          rfl
        have ha0 : plainToken seps a0 := by
          have hmem := lookupOverride_mem table w acc hlk
          have hht := ht _ hmem
          cases acc with
          | nil => cases hh
          | cons x xs =>
              injection hh with hh
              subst hh
              exact hht x (by simp)
        have hptab : '\t' ∉ p :=
          splitTab_no_tab (bodyOf raw) p
            (by rw [hsplit]; exact List.mem_cons_of_mem _ (List.mem_cons_self _ _))
        have hp'tab : '\t' ∉ (decideCorrection table seps w p).new_pinyin_field := by
          rcases hnew with hnew | ⟨c, aux, hcs, hpeq, hnew⟩
          · rw [hnew]
            intro hmem
            exact (ha0 '\t' hmem).2.2 rfl
          · rw [hnew]
            intro hmem
            rcases List.mem_append.mp hmem with hm | hm
            · exact (ha0 '\t' hm).2.2 rfl
            · rcases List.mem_cons.mp hm with hm | hm
              · exact (hs c hcs).2 hm.symm
              · apply hptab
                rw [hpeq]
                exact List.mem_append_right _ (List.mem_cons_of_mem _ hm)
        have hend : rest = [] →
            endsOK (decideCorrection table seps w p).new_pinyin_field := by
          intro hrnil
          subst hrnil
          have hbodyOK : endsOK (bodyOf raw) := splitTrailingWS_fst_endsOK raw
          have hbody_eq : bodyOf raw = w ++ '\t' :: p := by
            have hj := joinTab_splitTab (bodyOf raw)
            rw [hsplit] at hj
            rw [← hj]
            rfl
          have hpOK : p = [] ∨ endsOK p := by
            rw [hbody_eq] at hbodyOK
            exact (endsOK_append_tab w p).mp hbodyOK
          rcases hnew with hnew | ⟨c, aux, hcs, hpeq, hnew⟩
          · rw [hnew]
            intro d hd'
            exact (ha0 d (lastChar?_mem hd')).2.1
          · rw [hnew]
            intro d hd'
            rw [lastChar?_append_cons] at hd'
            cases aux with
            | nil =>
                rw [lastChar?_cons, if_pos rfl] at hd'
                injection hd' with hd'
                subst hd'
                exact (hs c hcs).1
            | cons x aux' =>
                rw [lastChar?_cons, if_neg (by simp)] at hd'
                have hpne : p ≠ [] := by
                  rw [hpeq]
                  intro hcontr
                  have := congrArg List.length hcontr
                  simp at this
                have hpOK' : endsOK p := by
                  rcases hpOK with h0 | h0
                  · exact absurd h0 hpne
                  · exact h0
                apply hpOK' d
                rw [hpeq, lastChar?_append_cons, lastChar?_cons, if_neg (by simp)]
                exact hd'
        have hre := parseLine_reserialized raw w p rest tw
          (decideCorrection table seps w p).new_pinyin_field hq hp'tab hend
        have hsecond : decideCorrection table seps w
            (decideCorrection table seps w p).new_pinyin_field =
            ⟨false, (decideCorrection table seps w p).new_pinyin_field⟩ := by
          rcases hnew with hnew | ⟨c, aux, hcs, hpeq, hnew⟩
          · apply decideCorrection_base_accepted table seps w _ acc hlk
            rw [hnew, splitAuxCode_no_sep seps a0 (fun x hx => (ha0 x hx).1)]
            exact head?_some_mem hh
          · apply decideCorrection_base_accepted table seps w _ acc hlk
            rw [hnew, splitAuxCode_append seps a0 c aux (fun x hx => (ha0 x hx).1) hcs]
            exact head?_some_mem hh
        rw [hout]
        unfold correctLine
        rw [hre]
        simp only [hsecond]
        rfl

/-- The header-section state is unaffected by correcting a line. -/
lemma stepInData_correctLine (table : OverrideTable) (seps : List Char) (b : Bool)
    (raw : List Char) :
    stepInData b (correctLine table seps b raw) = stepInData b raw := by
  have key : correctLine table seps b raw = raw ∨
      ('\t' ∈ correctLine table seps b raw ∧ '\t' ∈ raw) := by
    cases hq : parseLine b raw with
    | commentOrHeader r =>
        left
        unfold correctLine
        rw [hq]
    | malformed r =>
        left
        unfold correctLine
        rw [hq]
    | dataLine w p rest tw =>
        right
        have hout : correctLine table seps b raw =
            joinTab (w :: (decideCorrection table seps w p).new_pinyin_field :: rest) ++ tw := by
          unfold correctLine
          rw [hq]
          rfl
        constructor
        · rw [hout]
          apply List.mem_append_left
          show '\t' ∈ w ++ '\t' ::
            joinTab ((decideCorrection table seps w p).new_pinyin_field :: rest)
          exact List.mem_append_right _ (List.mem_cons_self _ _)
        · have hraw : raw = joinTab (w :: p :: rest) ++ tw := by
            rw [← serializeLine_parseLine b raw, hq]
            rfl
          rw [hraw]
          apply List.mem_append_left
          show '\t' ∈ w ++ '\t' :: joinTab (p :: rest)
          exact List.mem_append_right _ (List.mem_cons_self _ _)
  rcases key with h | ⟨h1, h2⟩
  · rw [h]
  · have hne1 : correctLine table seps b raw ≠ dataSectionDelimiter := by
      intro hc
      rw [hc] at h1
      exact absurd h1 (by decide)
    have hne2 : raw ≠ dataSectionDelimiter := by
      intro hc
      rw [hc] at h2
      exact absurd h2 (by decide)
    unfold stepInData
    rw [if_neg hne1, if_neg hne2]

/-- Idempotence of whole-file correction, lifted over the line list. -/
lemma correctLines_idem (table : OverrideTable) (seps : List Char)
    (hs : sepsOK seps) (ht : tableHeadsPlain table seps) :
    ∀ (b : Bool) (lines : List (List Char)),
      correctLines table seps b (correctLines table seps b lines) =
        correctLines table seps b lines
  | _, [] => rfl
  | b, l :: ls => by
      have ih := correctLines_idem table seps hs ht (stepInData b l) ls
      simp only [correctLines]
      rw [correctLine_idem table seps hs ht b l]
      rw [stepInData_correctLine table seps b l]
      rw [ih]

/-- C6 counterexample: the claim fails as stated.  With the override table
mapping `w` to the single accepted pronunciation `a;b` (which contains the
separator `;`) and the file `...` / `w<TAB>x`, the first run rewrites the
data line to `w<TAB>a;b`, and the second run rewrites it again to
`w<TAB>a;b;b`. -/
theorem C6_idempotence_counterexample :
    correctFile [("w".toList, ["a;b".toList])] defaultSeps
        (correctFile [("w".toList, ["a;b".toList])] defaultSeps
          ["...".toList, "w\tx".toList]) ≠
      correctFile [("w".toList, ["a;b".toList])] defaultSeps
        ["...".toList, "w\tx".toList] := by
  decide

/-- C6 (amended): the correction pipeline is idempotent provided the
separator characters are not whitespace and every table entry's first
accepted pronunciation contains no separator, whitespace or tab character
(true of every table the Override Table Builder produces, since its tokens
are whitespace-delimited): running the engine a second time on the output
of the first run changes no line. -/
theorem C6_idempotent (table : OverrideTable) (seps : List Char)
    (hs : sepsOK seps) (ht : tableHeadsPlain table seps) (lines : List (List Char)) :
    correctFile table seps (correctFile table seps lines) =
      correctFile table seps lines :=
  correctLines_idem table seps hs ht false lines

/-- Witness for the amended C6 on a real-shaped file: the header, the
delimiter and one corrected data line survive a second pass unchanged. -/
theorem C6_idempotent_witness :
    correctFile [("w".toList, ["a".toList])] defaultSeps
        (correctFile [("w".toList, ["a".toList])] defaultSeps
          ["# head".toList, "...".toList, "w\tx\t10".toList]) =
      correctFile [("w".toList, ["a".toList])] defaultSeps
        ["# head".toList, "...".toList, "w\tx\t10".toList] :=
  C6_idempotent [("w".toList, ["a".toList])] defaultSeps (by decide) (by decide)
    ["# head".toList, "...".toList, "w\tx\t10".toList]

end RimeUserdb
